import Mathlib

/-!
Verification of the chunking and retrieval pipeline.

Shallow embedding of:
* `finance_multi_modal_rag/chunking.py` (`split_into_chunks`,
  `KamradtModifiedChunker.combine_sentences` / `split_text`),
* `finance_multi_modal_rag/response_generation.py` (`FinanceQABot.fetch_most_relevant_image`),
* `rag-tutor/src/retrieval/chunker/md_chunker.py` (`is_pre_tag`, `chunk_node`,
  `merge_chunks_with_tolerance`),
* `rag-tutor/src/retrieval/chunker/code_chunker.py` (`collect_identifiers`,
  `collect_identifiers_from_type_annotations`, `process_function`,
  `process_decorated_definition`),
* `rag-tutor/src/retrieval/docstore.py` (`HybridRetriever.rerank` / `retrieve_and_rerank`).

External adapters (the blingfire sentence splitter, embedding model, cosine-distance
computation, the rerank API, the image retriever and the base64 encoder) are modelled as
function parameters, following the spec's external-interface section.  Token counters
(`length_function`) are arbitrary functions `String → Nat`.  The floating-point values
flowing through the Kamradt binary search are modelled as rationals: every number the
search manipulates is a dyadic rational of denominator at most 2^20, hence exactly
representable as a float64, so the rational model follows the float code step by step.
-/

namespace RagSpec

/-! ## `split_into_chunks` (chunking.py lines 37-74)

The sentence list is the output of the (external) `sentence_splitter`; the loop below is
the Python `for sentence, token in zip(sentences, n_tokens)` loop, with the running
chunk kept as a list of sentences and the final "\n".join applied by
`split_into_chunks`.  `tokensSoFar + token > max_tokens` flushes the accumulator,
`token > max_tokens` skips the sentence, otherwise the sentence is appended and
`tokens_so_far` advances by `token + 1`. -/

def split_into_chunks_loop (lengthFn : String → Nat) (maxTokens : Nat) :
    List String → Nat → List String → List (List String)
  | [], _, chunk => if chunk.isEmpty then [] else [chunk]
  | sentence :: rest, tokensSoFar, chunk =>
    let token := lengthFn ("\n" ++ sentence)
    if maxTokens < tokensSoFar + token then
      if maxTokens < token then
        chunk :: split_into_chunks_loop lengthFn maxTokens rest 0 []
      else
        chunk :: split_into_chunks_loop lengthFn maxTokens rest (token + 1) [sentence]
    else
      if maxTokens < token then
        split_into_chunks_loop lengthFn maxTokens rest tokensSoFar chunk
      else
        split_into_chunks_loop lengthFn maxTokens rest (tokensSoFar + token + 1)
          (chunk ++ [sentence])

def split_into_chunks (lengthFn : String → Nat) (maxTokens : Nat)
    (sentences : List String) : List String :=
  (split_into_chunks_loop lengthFn maxTokens sentences 0 []).map (String.intercalate "\n")

/-! ## `KamradtModifiedChunker` (chunking.py lines 77-230) -/

/-- `combine_sentences` (lines 116-137): window `i` is
`sep.join(sentences[max(0, i-buffer) : min(n, i+buffer+1)])`. -/
def combine_sentences (sentences : List String) (bufferSize : Nat) (sep : String) :
    List String :=
  (List.range sentences.length).map fun i =>
    String.intercalate sep
      ((sentences.drop (i - bufferSize)).take
        (min sentences.length (i + bufferSize + 1) - (i - bufferSize)))

/-- `np.sum(distances_np > threshold)` (line 204). -/
def num_points_above (distances : List ℚ) (threshold : ℚ) : Nat :=
  (distances.filter fun x => threshold < x).length

/-- The `while upper_limit - lower_limit > 1e-6` binary search (lines 197-209), with an
explicit iteration budget (`fuel`).  From the initial interval `[0, 1]` the width is
exactly halved each iteration, so 20 iterations always reach the exit condition; this is
proved below, which justifies running the loop with fuel 20 inside `split_text`.  All
intermediate values are dyadic rationals of denominator dividing 2^20 (exact in float64),
and the widths 2^-k are never strictly between the exact 1e-6 and its float64 rounding,
so the rational model takes exactly the branches the float code takes. -/
def threshold_search (distances : List ℚ) (numberOfCuts : Nat) :
    Nat → ℚ → ℚ → ℚ → ℚ × ℚ × ℚ
  | 0, lowerLimit, upperLimit, threshold => (lowerLimit, upperLimit, threshold)
  | fuel + 1, lowerLimit, upperLimit, threshold =>
    if 1 / 1000000 < upperLimit - lowerLimit then
      let t := (upperLimit + lowerLimit) / 2
      if numberOfCuts < num_points_above distances t then
        threshold_search distances numberOfCuts fuel t upperLimit t
      else
        threshold_search distances numberOfCuts fuel lowerLimit t t
    else (lowerLimit, upperLimit, threshold)

/-- `indices_above_thresh = [i for i, x in enumerate(distances) if x > threshold]`
(line 211). -/
def cut_indices (distances : List ℚ) (threshold : ℚ) : List Nat :=
  (List.range distances.length).filter fun i => threshold < distances.getD i 0

/-- The `for index in indices_above_thresh` grouping loop (lines 213-228), at the level
of sentence groups (the `" ".join` is applied afterwards).  `sentences[start:end+1]` is
`(drop start).take (end + 1 - start)`; Python slice clamping coincides with the
truncated subtraction and `take`/`drop` beyond the list length. -/
def chunk_groups (sentences : List String) : List Nat → Nat → List (List String)
  | [], startIndex =>
    if startIndex < sentences.length then [sentences.drop startIndex] else []
  | index :: rest, startIndex =>
    (sentences.drop startIndex).take (index + 1 - startIndex)
      :: chunk_groups sentences rest (index + 1)

/-- `KamradtModifiedChunker.split_text` (lines 168-230).  `sentenceSplitter` is the
external blingfire-based `sentence_splitter`; `distanceOracle` is the composition of the
external embedding model with the cosine-distance computation of
`calculate_cosine_distances` applied to the combined windows.  The binary search runs
with fuel 20, which the termination theorem below shows is the exact iteration count of
the unbounded Python loop. -/
def split_text (lengthFn : String → Nat) (minChunkSize avgChunkSize : Nat)
    (distanceOracle : List String → List ℚ) (sentenceSplitter : String → List String)
    (text : String) : List String :=
  let sentencesStrips := split_into_chunks lengthFn minChunkSize (sentenceSplitter text)
  if sentencesStrips.length ≤ 1 then [text]
  else
    let combined := combine_sentences sentencesStrips 3 "\n"
    let distances := distanceOracle combined
    let totalTokens := (sentencesStrips.map lengthFn).sum
    let numberOfCuts := totalTokens / avgChunkSize
    let result := threshold_search distances numberOfCuts 20 0 1 0
    let threshold := result.2.2
    (chunk_groups sentencesStrips (cut_indices distances threshold) 0).map
      (String.intercalate " ")

/-! ## md_chunker.py: HTML tree nodes, `is_pre_tag`, `chunk_node`,
`merge_chunks_with_tolerance`

A tree-sitter HTML node carries its `type`, the source `text` it spans, and its
`children`.  Node text is a string (the Python bytes, decoded). -/

inductive HNode : Type where
  | mk : String → String → List HNode → HNode

def HNode.type : HNode → String
  | .mk ty _ _ => ty

def HNode.text : HNode → String
  | .mk _ tx _ => tx

def HNode.children : HNode → List HNode
  | .mk _ _ ch => ch

/-- `is_pre_tag` (md_chunker.py lines 28-36): the node is an `element` whose first child
is a `start_tag` whose second child reads `pre`; then the node's own text is returned.
A `start_tag` with fewer than two children would raise `IndexError` in Python; the real
HTML grammar always provides them, and the model treats that unreachable case as
not-a-pre. -/
def is_pre_tag (node : HNode) : Option String :=
  match node.children with
  | [] => none
  | c0 :: _ =>
    match c0.children.get? 1 with
    | none => none
    | some c01 =>
      if node.type = "element" ∧ c0.type = "start_tag" ∧ c01.text = "pre" then
        some node.text
      else none

mutual

/-- `chunk_node` (md_chunker.py lines 39-49).  Python tests `if pre_content:`, which is
false both for `None` and for an empty byte string, so a pre node with empty text falls
through to the length test; the two identical fall-through branches transcribe that
truthiness. -/
def chunk_node (lengthCallable : String → Nat) (maxLength : Nat) : HNode → List String
  | HNode.mk ty tx ch =>
    match is_pre_tag (HNode.mk ty tx ch) with
    | some preContent =>
      if preContent = "" then
        if lengthCallable tx ≤ maxLength then [tx]
        else chunk_node_children lengthCallable maxLength ch
      else [preContent]
    | none =>
      if lengthCallable tx ≤ maxLength then [tx]
      else chunk_node_children lengthCallable maxLength ch

def chunk_node_children (lengthCallable : String → Nat) (maxLength : Nat) :
    List HNode → List String
  | [] => []
  | c :: cs =>
    chunk_node lengthCallable maxLength c
      ++ chunk_node_children lengthCallable maxLength cs

end

mutual

/-- All nodes of the tree, the root included. -/
def HNode.subtrees : HNode → List HNode
  | HNode.mk ty tx ch => HNode.mk ty tx ch :: hnode_list_subtrees ch

def hnode_list_subtrees : List HNode → List HNode
  | [] => []
  | c :: cs => c.subtrees ++ hnode_list_subtrees cs

end

/-- Spans of tree-sitter nodes nest: every node's text contains each child's text as a
contiguous substring.  Trees produced by parsing a real document satisfy this. -/
def span_coherent (root : HNode) : Prop :=
  ∀ m ∈ root.subtrees, ∀ c ∈ m.children, c.text.data <:+: m.text.data

instance (root : HNode) : Decidable (span_coherent root) := by
  unfold span_coherent
  infer_instance

/-- Structural induction for `HNode` along the nested `List` of children. -/
def HNode.strongInduction {motive : HNode → Prop}
    (step : ∀ ty tx ch, (∀ c ∈ ch, motive c) → motive (HNode.mk ty tx ch)) :
    ∀ node, motive node
  | HNode.mk ty tx ch =>
    step ty tx ch fun c hc =>
      have : sizeOf c < sizeOf (HNode.mk ty tx ch) := by
        have := List.sizeOf_lt_of_mem hc
        simp only [HNode.mk.sizeOf_spec]
        omega
      HNode.strongInduction step c
termination_by node => sizeOf node

/-- `merge_chunks_with_tolerance` (md_chunker.py lines 63-81): the
`for next_chunk in chunks[1:]` loop with the running `current_chunk`. -/
def merge_chunks_loop (lengthCallable : String → Nat) (maxLength lengthTolerance : Nat) :
    List String → String → List String
  | [], currentChunk => [currentChunk]
  | nextChunk :: rest, currentChunk =>
    if lengthCallable (currentChunk ++ nextChunk) ≤ maxLength + lengthTolerance then
      merge_chunks_loop lengthCallable maxLength lengthTolerance rest
        (currentChunk ++ "\n\n" ++ nextChunk)
    else
      currentChunk :: merge_chunks_loop lengthCallable maxLength lengthTolerance rest
        nextChunk

def merge_chunks_with_tolerance (chunks : List String) (lengthCallable : String → Nat)
    (maxLength lengthTolerance : Nat) : List String :=
  match chunks with
  | [] => []
  | c :: rest => merge_chunks_loop lengthCallable maxLength lengthTolerance rest c

/-! ## code_chunker.py: Python syntax-tree nodes and `process_function`

A tree-sitter Python node carries its `type`, its source `text`, and its children; each
child may carry a field name (`child_by_field_name` looks children up by it, as the
tree-sitter API does). -/

inductive PNode : Type where
  | mk : String → String → List (Option String × PNode) → PNode

def PNode.type : PNode → String
  | .mk ty _ _ => ty

def PNode.text : PNode → String
  | .mk _ tx _ => tx

def PNode.children : PNode → List (Option String × PNode)
  | .mk _ _ ch => ch

def child_by_field_name (node : PNode) (fieldName : String) : Option PNode :=
  (node.children.find? fun c => c.1 = some fieldName).map (·.2)

/-- A node found through a field is one of the node's children, hence smaller. -/
def PNode.sizeOf_of_field {node : PNode} {fieldName : String} {p : PNode}
    (h : child_by_field_name node fieldName = some p) : sizeOf p < sizeOf node := by
  obtain ⟨ty, tx, ch⟩ := node
  simp only [child_by_field_name, PNode.children, Option.map_eq_some'] at h
  obtain ⟨pair, hfind, hsnd⟩ := h
  have hlt := List.sizeOf_lt_of_mem (List.mem_of_find?_eq_some hfind)
  obtain ⟨a, b⟩ := pair
  simp only at hsnd
  subst hsnd
  simp only [Prod.mk.sizeOf_spec] at hlt
  simp only [PNode.mk.sizeOf_spec]
  omega

mutual

/-- `collect_identifiers` (code_chunker.py lines 61-73): gather `identifier` node texts,
but inside nested `function_definition` / `class_definition` nodes look only at the
`parameters` and `return_type` fields.  The Python mutable-set accumulator is modelled
as a returned `Finset`. -/
def collect_identifiers : PNode → Finset String
  | PNode.mk ty tx ch =>
    if ty = "identifier" then {tx}
    else if ty = "function_definition" ∨ ty = "class_definition" then
      (match h : child_by_field_name (PNode.mk ty tx ch) "parameters" with
       | some parameters => collect_identifiers parameters
       | none => ∅) ∪
      (match h : child_by_field_name (PNode.mk ty tx ch) "return_type" with
       | some returnType => collect_identifiers returnType
       | none => ∅)
    else collect_identifiers_children ch
termination_by node => sizeOf node
decreasing_by
  · have hlt := PNode.sizeOf_of_field h
    simp only [PNode.mk.sizeOf_spec] at hlt ⊢
    omega
  · have hlt := PNode.sizeOf_of_field h
    simp only [PNode.mk.sizeOf_spec] at hlt ⊢
    omega
  · simp only [PNode.mk.sizeOf_spec]
    omega

def collect_identifiers_children : List (Option String × PNode) → Finset String
  | [] => ∅
  | c :: cs => collect_identifiers c.2 ∪ collect_identifiers_children cs
termination_by cs => sizeOf cs
decreasing_by
  · obtain ⟨c1, c2⟩ := c
    simp only [Prod.mk.sizeOf_spec, List.cons.sizeOf_spec]
    omega
  · simp only [List.cons.sizeOf_spec]
    omega

end

mutual

/-- `collect_identifiers_from_type_annotations` (code_chunker.py lines 76-81). -/
def collect_identifiers_from_type_annotations : PNode → Finset String
  | PNode.mk ty tx ch =>
    if ty = "type" ∨ ty = "type_identifier" ∨ ty = "identifier" then {tx}
    else collect_identifiers_from_type_annotations_children ch

def collect_identifiers_from_type_annotations_children :
    List (Option String × PNode) → Finset String
  | [] => ∅
  | c :: cs =>
    collect_identifiers_from_type_annotations c.2
      ∪ collect_identifiers_from_type_annotations_children cs

end

def default_pnode : PNode := PNode.mk "" "" []

/-- The identifier set `process_function` builds for one function node (code_chunker.py
lines 146-155): identifiers of the `body` plus type-annotation identifiers of the
`parameters` and `return_type` fields.  (A `function_definition` always has a `body`
field; Python would raise on `None` there, and the model substitutes an inert empty
node.) -/
def function_identifiers (node : PNode) : Finset String :=
  collect_identifiers ((child_by_field_name node "body").getD default_pnode)
    ∪ (match child_by_field_name node "parameters" with
       | some parameters => collect_identifiers_from_type_annotations parameters
       | none => ∅)
    ∪ (match child_by_field_name node "return_type" with
       | some returnType => collect_identifiers_from_type_annotations returnType
       | none => ∅)

/-- The `context` dict handed down the recursion. -/
structure Ctx where
  parent_class : Option String
  parent_function : Option String
deriving DecidableEq

/-- The per-chunk `func_context` dict: `imports` holds `list(set(used_imports))`
(deduplicated import statements), `module_variables` the referenced module-level
variable names. -/
structure FuncContext where
  imports : Finset String
  module_variables : Finset String
  parent_class : Option String
  parent_function : Option String
deriving DecidableEq

structure CodeChunk where
  type : String
  name : String
  definition : String
  context : Option FuncContext
deriving DecidableEq

/-- code_chunker.py lines 157-181: `used_imports` / `used_module_vars` from the
identifier set, and `if not func_context: func_context = None`. -/
def build_func_context (importMap : String → Option String) (moduleVariables : List String)
    (context : Ctx) (identifiers : Finset String) : Option FuncContext :=
  let used_imports := identifiers.biUnion fun i => (importMap i).toFinset
  let used_module_vars := identifiers.filter fun i => i ∈ moduleVariables
  if used_imports = ∅ ∧ used_module_vars = ∅
      ∧ context.parent_class = none ∧ context.parent_function = none then none
  else
    some { imports := used_imports, module_variables := used_module_vars,
           parent_class := context.parent_class,
           parent_function := context.parent_function }

def function_name (node : PNode) : String :=
  ((child_by_field_name node "name").map PNode.text).getD ""

/-- `process_decorated_definition` (code_chunker.py lines 84-136): identifiers come from
the whole decorated node, the chunk is emitted for the first
`function_definition`/`class_definition` child. -/
def process_decorated_definition (importMap : String → Option String)
    (moduleVariables : List String) (context : Ctx) (node : PNode) : List CodeChunk :=
  let identifiers := collect_identifiers node
  match (node.children.find? fun c =>
      c.2.type = "function_definition" ∨ c.2.type = "class_definition").map (·.2) with
  | none => []
  | some funcDef =>
    [{ type :=
         if funcDef.type = "function_definition" then
           if context.parent_class.isSome then "method" else "function"
         else "class"
       name := function_name funcDef
       definition := node.text
       context := build_func_context importMap moduleVariables context identifiers }]

mutual

/-- `process_function` (code_chunker.py lines 139-209): emit the chunk for this
function, then walk the body's children for nested `function_definition` (processed
with `parent_function` set) and `decorated_definition` (processed with the original
context) nodes. -/
def process_function (importMap : String → Option String) (moduleVariables : List String)
    (context : Ctx) (node : PNode) : List CodeChunk :=
    let funcName := function_name node
    let identifiers := function_identifiers node
    let chunk : CodeChunk :=
      { type := if context.parent_class.isSome then "method" else "function"
        name := funcName
        definition := node.text
        context := build_func_context importMap moduleVariables context identifiers }
    chunk ::
      (match h : child_by_field_name node "body" with
       | some funcBody =>
         process_function_children importMap moduleVariables
           { context with parent_function := some funcName } context funcBody.children
       | none => [])
termination_by sizeOf node
decreasing_by
  have hlt := PNode.sizeOf_of_field h
  obtain ⟨ty, tx, ch⟩ := funcBody
  simp only [PNode.children, PNode.mk.sizeOf_spec] at hlt ⊢
  omega

def process_function_children (importMap : String → Option String)
    (moduleVariables : List String) (contextNested contextOrig : Ctx) :
    List (Option String × PNode) → List CodeChunk
  | [] => []
  | c :: cs =>
    (if c.2.type = "function_definition" then
       process_function importMap moduleVariables contextNested c.2
     else if c.2.type = "decorated_definition" then
       process_decorated_definition importMap moduleVariables contextOrig c.2
     else [])
      ++ process_function_children importMap moduleVariables contextNested contextOrig cs
termination_by cs => sizeOf cs
decreasing_by
  · obtain ⟨c1, c2⟩ := c
    simp only [Prod.mk.sizeOf_spec, List.cons.sizeOf_spec]
    omega
  · simp only [List.cons.sizeOf_spec]
    omega

end

mutual

/-- All nodes of a Python tree (field children included). -/
def PNode.subtrees : PNode → List PNode
  | PNode.mk ty tx ch => PNode.mk ty tx ch :: pnode_children_subtrees ch

def pnode_children_subtrees : List (Option String × PNode) → List PNode
  | [] => []
  | c :: cs => c.2.subtrees ++ pnode_children_subtrees cs

end

/-- Declarative reading of "the name occurs in this piece of code": some node of the
subtree is an identifier-like node (the node types the two collectors inspect) carrying
that text. -/
def references_identifier (node : PNode) (name : String) : Prop :=
  ∃ m ∈ node.subtrees,
    (m.type = "identifier" ∨ m.type = "type" ∨ m.type = "type_identifier")
      ∧ m.text = name

instance (node : PNode) (name : String) : Decidable (references_identifier node name) := by
  unfold references_identifier
  infer_instance

/-- Declarative reading of "the name is referenced in the function's body or
signature". -/
def referenced_in_function (node : PNode) (name : String) : Prop :=
  references_identifier ((child_by_field_name node "body").getD default_pnode) name
    ∨ (child_by_field_name node "parameters").elim False
        (fun parameters => references_identifier parameters name)
    ∨ (child_by_field_name node "return_type").elim False
        (fun returnType => references_identifier returnType name)

instance (o : Option PNode) (name : String) :
    Decidable (o.elim False fun p => references_identifier p name) := by
  cases o <;> simp only [Option.elim] <;> infer_instance

instance (node : PNode) (name : String) : Decidable (referenced_in_function node name) := by
  unfold referenced_in_function
  infer_instance

/-- The `imports` entry of a possibly-absent context dict. -/
def context_imports : Option FuncContext → Finset String
  | none => ∅
  | some c => c.imports

/-- The `module_variables` entry of a possibly-absent context dict. -/
def context_module_variables : Option FuncContext → Finset String
  | none => ∅
  | some c => c.module_variables

/-- Structural induction for `PNode` along the nested children list. -/
def PNode.strongInduction {motive : PNode → Prop}
    (step : ∀ ty tx ch, (∀ c ∈ ch, motive c.2) → motive (PNode.mk ty tx ch)) :
    ∀ node, motive node
  | PNode.mk ty tx ch =>
    step ty tx ch fun c hc => PNode.strongInduction step c.2
termination_by node => sizeOf node
decreasing_by
  have h1 := List.sizeOf_lt_of_mem hc
  obtain ⟨c1, c2⟩ := c
  simp only [Prod.mk.sizeOf_spec] at h1
  simp only [PNode.mk.sizeOf_spec]
  omega

/-! ## docstore.py: `HybridRetriever.rerank` and `retrieve_and_rerank`

A retrieved candidate is modelled by its `content` (the dedup key), its
`embed_content` (the field sent to the reranker) and an opaque `payload`
distinguishing otherwise-equal rows. -/

structure RDoc where
  content : String
  embed_content : String
  payload : Nat
deriving DecidableEq

/-- One `deduped_docs[doc["content"]] = doc` step: a Python dict keeps the first-insert
position of a key and overwrites its value. -/
def dict_insert (m : List (String × RDoc)) (key : String) (value : RDoc) :
    List (String × RDoc) :=
  if m.any fun p => p.1 = key then
    m.map fun p => if p.1 = key then (key, value) else p
  else m ++ [(key, value)]

/-- docstore.py lines 110-113: insertion-ordered, last-writer-wins dedup by `content`,
then `list(deduped_docs.values())`. -/
def dedup_by_content (docs : List RDoc) : List RDoc :=
  (docs.foldl (fun m doc => dict_insert m doc.content doc) []).map (·.2)

/-- The rerank API response: the reranker-assigned order, as indices into the submitted
document list (`response.results[j]["index"]`). -/
structure RerankResponse where
  results : List Nat
deriving DecidableEq

/-- `HybridRetriever.rerank` (docstore.py lines 79-105).  `arerankFn` is the external
`litellm.arerank` adapter; a raised exception is an `Except.error` and propagates.
`top_n or len(docs)` is Python truthiness (`None` and `0` both fall back to
`len(docs)`), and `outputs[:top_n]` with `top_n=None` is the whole list.  An
out-of-range index in the response would raise `IndexError` in Python; the model drops
it (`List.get?` + `filterMap`), and the theorems about successful calls do not depend
on that unreachable case. -/
def rerank (arerankFn : String → List String → Nat → Except String RerankResponse)
    (query : String) (docs : List RDoc) (topN : Option Nat) :
    Except String (List RDoc) :=
  let documents := docs.map RDoc.embed_content
  match arerankFn query documents
      (match topN with
       | some n => if n = 0 then docs.length else n
       | none => docs.length) with
  | Except.error e => Except.error e
  | Except.ok response =>
    let outputs := response.results.filterMap fun i => docs.get? i
    Except.ok (match topN with
      | some n => outputs.take n
      | none => outputs)

/-- `HybridRetriever.retrieve_and_rerank` (docstore.py lines 107-116).  `documents` is
the list returned by the (external, database-backed) `retrieve(query, k*20)` call; the
`DocumentChunk(**doc)` reconstruction is the identity on the modelled fields. -/
def retrieve_and_rerank
    (arerankFn : String → List String → Nat → Except String RerankResponse)
    (query : String) (documents : List RDoc) (k : Nat) : Except String (List RDoc) :=
  let deduped_docs := dedup_by_content documents
  match rerank arerankFn query deduped_docs (some (k * 2)) with
  | Except.error e => Except.error e
  | Except.ok reranked_docs => Except.ok (reranked_docs.take k)

/-! ## response_generation.py: `FinanceQABot.fetch_most_relevant_image` -/

structure ChunkMeta where
  document_idx : Nat
  number_of_images : Nat
deriving DecidableEq

structure RChunk where
  metadata : ChunkMeta
deriving DecidableEq

/-- A row of the corpus dataset: its image descriptions and its images (an image is
opaque, modelled as a string). -/
structure DataRow where
  image_descriptions : List String
  images : List String
deriving DecidableEq

/-- `fetch_most_relevant_image` (response_generation.py lines 73-90).  `imagePredict`
is the external image retriever (`image_retriever.predict`, returning the ranked
`image_idx` list) and `encodeImage` the external base64 encoder.  Python indexes
`retrieved_image_description[0]`, `self._dataset[...]` and `images[...]` directly
(raising on out-of-range); the model substitutes defaults for those unreachable
cases. -/
def fetch_most_relevant_image (imagePredict : String → List String → Nat → List Nat)
    (encodeImage : String → String) (dataset : List DataRow) (query : String) :
    List RChunk → Option String
  | [] => none
  | chunk :: rest =>
    if 0 < chunk.metadata.number_of_images then
      let row := dataset.getD chunk.metadata.document_idx ⟨[], []⟩
      let retrievedImageIdx := (imagePredict query row.image_descriptions 1).headD 0
      some (encodeImage (row.images.getD retrievedImageIdx ""))
    else fetch_most_relevant_image imagePredict encodeImage dataset query rest

/-- Modelled from the spec: "the trimmed input text" — Python `str.strip()`, i.e.
leading and trailing whitespace removed.  (No trimming occurs anywhere in the
repository code; this definition exists only to state the spec's version of C3.) -/
def str_strip (s : String) : String :=
  ⟨((s.data.dropWhile (fun c => c.isWhitespace)).reverse.dropWhile
      (fun c => c.isWhitespace)).reverse⟩

/-! ## Concrete fixtures used by witnesses -/

/-- A `<pre>` element node as tree-sitter parses it. -/
def c4_pre : HNode :=
  HNode.mk "element" "<pre>x</pre>"
    [HNode.mk "start_tag" "<pre>"
       [HNode.mk "punct" "<" [], HNode.mk "tag_name" "pre" [], HNode.mk "punct" ">" []],
     HNode.mk "text" "x" [],
     HNode.mk "end_tag" "</pre>" []]

/-- A fragment wrapping the `<pre>` element. -/
def c4_root : HNode := HNode.mk "fragment" "<pre>x</pre>" [c4_pre]

/-- A parsed `def f(x): return np.sum(x)` function node (C5 witness fixture). -/
def c5_node : PNode :=
  PNode.mk "function_definition" "def f(x): return np.sum(x)"
    [(some "name", PNode.mk "identifier" "f" []),
     (some "parameters", PNode.mk "parameters" "(x)"
        [(none, PNode.mk "identifier" "x" [])]),
     (some "body", PNode.mk "block" "return np.sum(x)"
        [(none, PNode.mk "identifier" "np" []), (none, PNode.mk "identifier" "x" [])])]

def c5_import_map : String → Option String :=
  fun k => if k = "np" then some "import numpy as np" else none

/-- The chunk `process_function` emits for `c5_node` (head of its output). -/
def c5_chunk : CodeChunk :=
  { type := "function", name := function_name c5_node,
    definition := c5_node.text,
    context := build_func_context c5_import_map ["G"] ⟨none, none⟩
        (function_identifiers c5_node) }

/-- Candidate list with a duplicated `content` (C6 witness fixture). -/
def c6_docs : List RDoc :=
  [{ content := "a", embed_content := "ea", payload := 1 },
   { content := "a", embed_content := "ea2", payload := 2 },
   { content := "b", embed_content := "eb", payload := 3 }]

/-! ## Supporting lemmas for the similarity chunker -/

/-- Flattening the packing loop recovers exactly the sentences whose newline-prefixed
token count is within `maxTokens`, prefixed by the running accumulator. -/
theorem split_into_chunks_loop_flatten (lengthFn : String → Nat) (maxTokens : Nat) :
    ∀ (sentences : List String) (tokensSoFar : Nat) (chunk : List String),
      (split_into_chunks_loop lengthFn maxTokens sentences tokensSoFar chunk).flatten
        = chunk ++ sentences.filter fun s => lengthFn ("\n" ++ s) ≤ maxTokens := by
  intro sentences
  induction sentences with
  | nil =>
    intro tokensSoFar chunk
    cases chunk <;> simp [split_into_chunks_loop]
  | cons s rest ih =>
    intro tokensSoFar chunk
    simp only [split_into_chunks_loop]
    by_cases h2 : maxTokens < lengthFn ("\n" ++ s)
    · have hf : ¬ lengthFn ("\n" ++ s) ≤ maxTokens := by omega
      by_cases h1 : maxTokens < tokensSoFar + lengthFn ("\n" ++ s) <;>
        simp [h1, h2, ih, List.filter_cons, hf]
    · have hf : lengthFn ("\n" ++ s) ≤ maxTokens := by omega
      by_cases h1 : maxTokens < tokensSoFar + lengthFn ("\n" ++ s) <;>
        simp [h1, h2, ih, List.filter_cons, hf]

/-- The grouping loop partitions the group list: its flattening is the suffix from
`startIndex` on, provided the cut indices are strictly increasing and start after
`startIndex - 1`. -/
theorem chunk_groups_flatten (gs : List String) :
    ∀ (cuts : List Nat) (startIndex : Nat), List.Pairwise (· < ·) cuts →
      (∀ i ∈ cuts, startIndex ≤ i + 1) →
      (chunk_groups gs cuts startIndex).flatten = gs.drop startIndex := by
  intro cuts
  induction cuts with
  | nil =>
    intro startIndex _ _
    by_cases h : startIndex < gs.length
    · simp [chunk_groups, h]
    · simp only [chunk_groups, if_neg h]
      rw [List.drop_eq_nil_of_le (by omega)]
      rfl
  | cons i rest ih =>
    intro startIndex hp hs
    have hst : startIndex ≤ i + 1 := hs i (List.mem_cons_self i rest)
    have htail : ∀ j ∈ rest, i + 1 ≤ j + 1 := by
      intro j hj
      have := (List.pairwise_cons.mp hp).1 j hj
      omega
    simp only [chunk_groups, List.flatten_cons]
    rw [ih (i + 1) (List.pairwise_cons.mp hp).2 htail]
    have hdd : gs.drop (i + 1) = (gs.drop startIndex).drop (i + 1 - startIndex) := by
      rw [List.drop_drop]
      congr 1
      omega
    rw [hdd, List.take_append_drop]

/-- The cut indices are strictly increasing (they are produced by filtering
`range distances.length`). -/
theorem cut_indices_pairwise (distances : List ℚ) (threshold : ℚ) :
    List.Pairwise (· < ·) (cut_indices distances threshold) :=
  (List.pairwise_lt_range _).filter _

/-! ## Supporting lemmas for the binary search -/

/-- If the interval is already narrow, the loop exits immediately, whatever the fuel. -/
theorem threshold_search_stop (distances : List ℚ) (numberOfCuts fuel : Nat)
    (lo hi thr : ℚ) (h : ¬ 1 / 1000000 < hi - lo) :
    threshold_search distances numberOfCuts fuel lo hi thr = (lo, hi, thr) := by
  cases fuel with
  | zero => rfl
  | succ n =>
    simp only [threshold_search]
    rw [if_neg h]

/-- The interval width halves each iteration, so `fuel` iterations shrink a width of at
most `2 ^ fuel * 1e-6` below the 1e-6 exit bound. -/
theorem threshold_search_width (distances : List ℚ) (numberOfCuts : Nat) :
    ∀ (fuel : Nat) (lo hi thr : ℚ), hi - lo ≤ 2 ^ fuel * (1 / 1000000) →
      (threshold_search distances numberOfCuts fuel lo hi thr).2.1
        - (threshold_search distances numberOfCuts fuel lo hi thr).1 ≤ 1 / 1000000 := by
  intro fuel
  induction fuel with
  | zero =>
    intro lo hi thr h
    simp only [threshold_search]
    simpa using h
  | succ fuel ih =>
    intro lo hi thr h
    by_cases hc : 1 / 1000000 < hi - lo
    · have hpow : (2 : ℚ) ^ (fuel + 1) = 2 * 2 ^ fuel := by ring
      rw [hpow] at h
      simp only [threshold_search, if_pos hc]
      by_cases hb : numberOfCuts < num_points_above distances ((hi + lo) / 2)
      · rw [if_pos hb]
        apply ih
        linarith
      · rw [if_neg hb]
        apply ih
        linarith
    · rw [threshold_search_stop _ _ _ _ _ _ hc]
      simpa using le_of_not_lt hc

/-- Fuel beyond what the width bound requires does not change the result: the Python
`while` loop and the fuelled model agree once the fuel covers the halving count. -/
theorem threshold_search_fuel_stable (distances : List ℚ) (numberOfCuts : Nat) :
    ∀ (fuel : Nat) (lo hi thr : ℚ), hi - lo ≤ 2 ^ fuel * (1 / 1000000) →
      ∀ extra : Nat, threshold_search distances numberOfCuts (fuel + extra) lo hi thr
        = threshold_search distances numberOfCuts fuel lo hi thr := by
  intro fuel
  induction fuel with
  | zero =>
    intro lo hi thr h extra
    have hn : ¬ 1 / 1000000 < hi - lo := by
      simp only [pow_zero, one_mul] at h
      exact not_lt.mpr h
    rw [threshold_search_stop _ _ _ _ _ _ hn, threshold_search_stop _ _ _ _ _ _ hn]
  | succ fuel ih =>
    intro lo hi thr h extra
    by_cases hc : 1 / 1000000 < hi - lo
    · have hpow : (2 : ℚ) ^ (fuel + 1) = 2 * 2 ^ fuel := by ring
      rw [hpow] at h
      have hstep : fuel + 1 + extra = (fuel + extra) + 1 := by omega
      rw [hstep]
      simp only [threshold_search, if_pos hc]
      by_cases hb : numberOfCuts < num_points_above distances ((hi + lo) / 2)
      · rw [if_pos hb, if_pos hb]
        apply ih
        linarith
      · rw [if_neg hb, if_neg hb]
        apply ih
        linarith
    · rw [threshold_search_stop _ _ _ _ _ _ hc, threshold_search_stop _ _ _ _ _ _ hc]

/-- The loop only ever moves the upper limit to a midpoint whose cut count is within the
budget, so the final upper limit keeps that property. -/
theorem threshold_search_upper_bound (distances : List ℚ) (numberOfCuts : Nat) :
    ∀ (fuel : Nat) (lo hi thr : ℚ),
      num_points_above distances hi ≤ numberOfCuts →
      num_points_above distances
        (threshold_search distances numberOfCuts fuel lo hi thr).2.1 ≤ numberOfCuts := by
  intro fuel
  induction fuel with
  | zero =>
    intro lo hi thr h
    simpa [threshold_search] using h
  | succ fuel ih =>
    intro lo hi thr h
    by_cases hc : 1 / 1000000 < hi - lo
    · simp only [threshold_search, if_pos hc]
      by_cases hb : numberOfCuts < num_points_above distances ((hi + lo) / 2)
      · rw [if_pos hb]
        exact ih _ _ _ h
      · rw [if_neg hb]
        exact ih _ _ _ (not_lt.mp hb)
    · rw [threshold_search_stop _ _ _ _ _ _ hc]
      simpa using h

/-- Every threshold the loop writes stays strictly below 1 as long as the interval sits
inside `[lo, 1]` with `lo < 1`; used to exhibit a run whose final midpoint lies strictly
below the final upper limit. -/
theorem threshold_search_thr_lt_one (distances : List ℚ) (numberOfCuts : Nat) :
    ∀ (fuel : Nat) (lo hi thr : ℚ), lo < 1 → hi ≤ 1 → thr < 1 →
      (threshold_search distances numberOfCuts fuel lo hi thr).2.2 < 1 := by
  intro fuel
  induction fuel with
  | zero =>
    intro lo hi thr _ _ h3
    simpa [threshold_search] using h3
  | succ fuel ih =>
    intro lo hi thr h1 h2 h3
    by_cases hc : 1 / 1000000 < hi - lo
    · simp only [threshold_search, if_pos hc]
      have hmid : (hi + lo) / 2 < 1 := by linarith
      by_cases hb : numberOfCuts < num_points_above distances ((hi + lo) / 2)
      · rw [if_pos hb]
        exact ih _ _ _ hmid h2 hmid
      · rw [if_neg hb]
        exact ih _ _ _ h1 (le_of_lt hmid) hmid
    · rw [threshold_search_stop _ _ _ _ _ _ hc]
      simpa using h3

/-! ## Claims C1, C2, C3, C9: the similarity chunker -/

/-- C1 (amended): on the main path — at least two packed sentence groups — the chunks
returned by `split_text` are exactly the space-joins of a partition `P` of the packed
group sequence (each group appears exactly once, in the original order), and the packed
groups contain exactly the sentences whose newline-prefixed token count is within
`min_chunk_size`, in order, each exactly once.  On the degenerate (≤ 1 group) path the
whole text is returned instead, which is what the counterexample exhibits. -/
theorem claim_C1 (lengthFn : String → Nat) (minChunkSize avgChunkSize : Nat)
    (distanceOracle : List String → List ℚ) (sentenceSplitter : String → List String)
    (text : String)
    (h : 1 < (split_into_chunks lengthFn minChunkSize (sentenceSplitter text)).length) :
    ∃ P : List (List String),
      split_text lengthFn minChunkSize avgChunkSize distanceOracle sentenceSplitter text
          = P.map (String.intercalate " ")
      ∧ P.flatten = split_into_chunks lengthFn minChunkSize (sentenceSplitter text)
      ∧ (split_into_chunks_loop lengthFn minChunkSize (sentenceSplitter text) 0 []).flatten
          = (sentenceSplitter text).filter
              fun s => lengthFn ("\n" ++ s) ≤ minChunkSize := by
  have hne : ¬ (split_into_chunks lengthFn minChunkSize (sentenceSplitter text)).length
      ≤ 1 := by omega
  refine ⟨chunk_groups (split_into_chunks lengthFn minChunkSize (sentenceSplitter text))
      (cut_indices
        (distanceOracle (combine_sentences
          (split_into_chunks lengthFn minChunkSize (sentenceSplitter text)) 3 "\n"))
        ((threshold_search
          (distanceOracle (combine_sentences
            (split_into_chunks lengthFn minChunkSize (sentenceSplitter text)) 3 "\n"))
          (((split_into_chunks lengthFn minChunkSize (sentenceSplitter text)).map
            lengthFn).sum / avgChunkSize) 20 0 1 0).2.2)) 0, ?_, ?_, ?_⟩
  · simp only [split_text]
    rw [if_neg hne]
  · have hfl := chunk_groups_flatten
      (split_into_chunks lengthFn minChunkSize (sentenceSplitter text))
      (cut_indices
        (distanceOracle (combine_sentences
          (split_into_chunks lengthFn minChunkSize (sentenceSplitter text)) 3 "\n"))
        ((threshold_search
          (distanceOracle (combine_sentences
            (split_into_chunks lengthFn minChunkSize (sentenceSplitter text)) 3 "\n"))
          (((split_into_chunks lengthFn minChunkSize (sentenceSplitter text)).map
            lengthFn).sum / avgChunkSize) 20 0 1 0).2.2)) 0
      (cut_indices_pairwise _ _) (fun i _ => by omega)
    simpa using hfl
  · simpa using split_into_chunks_loop_flatten lengthFn minChunkSize
      (sentenceSplitter text) 0 []

theorem claim_C1_witness :
    1 < (split_into_chunks (fun _ => 0) 0
        ((fun _ : String => ["a", "b"]) "t")).length
    ∧ ∃ P : List (List String),
        split_text (fun _ => 0) 0 1 (fun _ => [(1 : ℚ)/2]) (fun _ => ["a", "b"]) "t"
            = P.map (String.intercalate " ")
        ∧ P.flatten = split_into_chunks (fun _ => 0) 0
            ((fun _ : String => ["a", "b"]) "t")
        ∧ (split_into_chunks_loop (fun _ => 0) 0
            ((fun _ : String => ["a", "b"]) "t") 0 []).flatten
            = ((fun _ : String => ["a", "b"]) "t").filter
                fun s => (fun _ => 0) ("\n" ++ s) ≤ 0 :=
  ⟨by decide, claim_C1 (fun _ => 0) 0 1 (fun _ => [(1 : ℚ)/2])
    (fun _ => ["a", "b"]) "t" (by decide)⟩

/-- C1 as stated fails on the ≤ 1-group path: a text that is one single overlong
sentence is packed into the single empty group `[""]`, yet `split_text` returns the
whole text as the only chunk, so the overlong sentence is not omitted and the returned
chunks are not space-joins of the packed groups. -/
theorem claim_C1_counterexample :
    split_text String.length 0 1 (fun _ => ([] : List ℚ)) (fun t => [t]) "abc" = ["abc"]
    ∧ split_into_chunks String.length 0 ((fun (t : String) => [t]) "abc") = [""]
    ∧ ¬ ∃ P : List (List String),
        split_text String.length 0 1 (fun _ => ([] : List ℚ)) (fun t => [t]) "abc"
            = P.map (String.intercalate " ")
        ∧ P.flatten = split_into_chunks String.length 0 ((fun (t : String) => [t]) "abc") := by
  refine ⟨by decide, by decide, ?_⟩
  rintro ⟨P, h1, h2⟩
  have ha : split_text String.length 0 1 (fun _ => ([] : List ℚ)) (fun t => [t]) "abc"
      = ["abc"] := by decide
  have hb : split_into_chunks String.length 0 ((fun (t : String) => [t]) "abc")
      = [""] := by decide
  rw [ha] at h1
  rw [hb] at h2
  cases P with
  | nil => simp at h2
  | cons p rest =>
    cases rest with
    | nil =>
      simp only [List.map_cons, List.map_nil] at h1
      simp only [List.flatten_cons, List.flatten_nil, List.append_nil] at h2
      subst h2
      have hi : String.intercalate " " [""] = "" := by decide
      rw [hi] at h1
      exact absurd h1 (by decide)
    | cons q rest2 => simp at h1

/-- C2 (amended): the binary search from `[0, 1]` is insensitive to fuel beyond 20
iterations (hence the unbounded Python `while` loop terminates within about 21
iterations), the final interval is no wider than 1e-6, and — when every gap distance is
at most 1 — the number of gaps strictly above the final *upper limit* is at most the
desired cut count.  The cut indices themselves are computed against the final midpoint
`threshold`, which can be strictly below the upper limit; the counterexample shows the
produced cut count exceeding the desired one. -/
theorem claim_C2 (distances : List ℚ) (numberOfCuts : Nat)
    (hle : ∀ d ∈ distances, d ≤ 1) :
    (∀ extra : Nat,
        threshold_search distances numberOfCuts (20 + extra) 0 1 0
          = threshold_search distances numberOfCuts 20 0 1 0)
    ∧ (threshold_search distances numberOfCuts 20 0 1 0).2.1
        - (threshold_search distances numberOfCuts 20 0 1 0).1 ≤ 1 / 1000000
    ∧ num_points_above distances
        (threshold_search distances numberOfCuts 20 0 1 0).2.1 ≤ numberOfCuts := by
  have hw : (1 : ℚ) - 0 ≤ 2 ^ 20 * (1 / 1000000) := by norm_num
  refine ⟨fun extra => threshold_search_fuel_stable distances numberOfCuts 20 0 1 0 hw extra,
    threshold_search_width distances numberOfCuts 20 0 1 0 hw, ?_⟩
  have h1 : num_points_above distances 1 ≤ numberOfCuts := by
    have : distances.filter (fun x => (1 : ℚ) < x) = [] := by
      apply List.filter_eq_nil_iff.mpr
      intro d hd
      simpa using not_lt.mpr (hle d hd)
    simp [num_points_above, this]
  exact threshold_search_upper_bound distances numberOfCuts 20 0 1 0 h1

theorem claim_C2_witness :
    threshold_search [(1 : ℚ)/2] 3 (20 + 5) 0 1 0 = threshold_search [(1 : ℚ)/2] 3 20 0 1 0
    ∧ (threshold_search [(1 : ℚ)/2] 3 20 0 1 0).2.1
        - (threshold_search [(1 : ℚ)/2] 3 20 0 1 0).1 ≤ 1 / 1000000
    ∧ num_points_above [(1 : ℚ)/2]
        (threshold_search [(1 : ℚ)/2] 3 20 0 1 0).2.1 ≤ 3 :=
  ⟨(claim_C2 [(1 : ℚ)/2] 3 (by norm_num)).1 5,
   (claim_C2 [(1 : ℚ)/2] 3 (by norm_num)).2.1,
   (claim_C2 [(1 : ℚ)/2] 3 (by norm_num)).2.2⟩

/-- C2 as stated fails: with a single gap of distance 1 and desired cut count 0, every
iteration raises the lower limit, the final threshold (the last midpoint) stays strictly
below 1, and the produced cut index list has one element — more than the desired 0. -/
theorem claim_C2_counterexample :
    (cut_indices [(1 : ℚ)] ((threshold_search [(1 : ℚ)] 0 20 0 1 0).2.2)).length = 1
    ∧ ¬ (cut_indices [(1 : ℚ)] ((threshold_search [(1 : ℚ)] 0 20 0 1 0).2.2)).length ≤ 0 := by
  have hthr : (threshold_search [(1 : ℚ)] 0 20 0 1 0).2.2 < 1 :=
    threshold_search_thr_lt_one [(1 : ℚ)] 0 20 0 1 0 (by norm_num) (by norm_num)
      (by norm_num)
  have hcut : cut_indices [(1 : ℚ)] ((threshold_search [(1 : ℚ)] 0 20 0 1 0).2.2)
      = [0] := by
    simp only [cut_indices]
    rw [show List.range [(1 : ℚ)].length = [0] from rfl]
    simp [List.getD, hthr]
  rw [hcut]
  simp

/-- C3 (amended): with at most one packed sentence group, `split_text` returns exactly
one chunk, and that chunk is the *original, untrimmed* input text; the result is
independent of the distance oracle, so no embedding or distance computation influences
this path.  The spec's "trimmed" is refuted by the counterexample. -/
theorem claim_C3 (lengthFn : String → Nat) (minChunkSize avgChunkSize : Nat)
    (sentenceSplitter : String → List String) (text : String)
    (h : (split_into_chunks lengthFn minChunkSize (sentenceSplitter text)).length ≤ 1) :
    ∀ distanceOracle : List String → List ℚ,
      split_text lengthFn minChunkSize avgChunkSize distanceOracle sentenceSplitter text
        = [text] := by
  intro distanceOracle
  simp only [split_text]
  rw [if_pos h]

theorem claim_C3_witness :
    (split_into_chunks (fun _ => 0) 0 ((fun (t : String) => [t]) "hello")).length ≤ 1
    ∧ split_text (fun _ => 0) 0 1 (fun _ => ([] : List ℚ)) (fun t => [t]) "hello"
        = ["hello"] :=
  ⟨by decide,
   claim_C3 (fun _ => 0) 0 1 (fun t => [t]) "hello" (by decide) (fun _ => [])⟩

/-- C3 as stated fails: on the single-group path the code returns `[text]` itself, not
`[text.strip()]`; a leading space survives. -/
theorem claim_C3_counterexample :
    split_text (fun _ => 0) 5 1 (fun _ => ([] : List ℚ)) (fun t => [t]) " x" = [" x"]
    ∧ str_strip " x" = "x"
    ∧ split_text (fun _ => 0) 5 1 (fun _ => ([] : List ℚ)) (fun t => [t]) " x"
        ≠ [str_strip " x"] := by
  refine ⟨by decide, by decide, ?_⟩
  intro hcontra
  have ha : split_text (fun _ => 0) 5 1 (fun _ => ([] : List ℚ)) (fun t => [t]) " x"
      = [" x"] := by decide
  rw [ha] at hcontra
  exact absurd hcontra (by decide)

/-- C9 (confirmed): when the first sentence's newline-prefixed token count exceeds
`max_tokens`, the first thing `split_into_chunks` does is flush the still-empty
accumulator, so the returned list starts with the empty string. -/
theorem claim_C9 (lengthFn : String → Nat) (maxTokens : Nat) (s : String)
    (rest : List String) (h : maxTokens < lengthFn ("\n" ++ s)) :
    (split_into_chunks lengthFn maxTokens (s :: rest)).head? = some "" := by
  simp only [split_into_chunks, split_into_chunks_loop]
  rw [if_pos (show maxTokens < 0 + lengthFn ("\n" ++ s) by omega), if_pos h]
  rfl

theorem claim_C9_witness :
    0 < (fun _ : String => 1) ("\n" ++ "a")
    ∧ (split_into_chunks (fun _ => 1) 0 ["a"]).head? = some "" :=
  ⟨by decide, claim_C9 (fun _ => 1) 0 "a" [] (by decide)⟩

/-! ## Claim C10: `merge_chunks_with_tolerance` -/

theorem intercalate_go_append (s : String) :
    ∀ (l : List String) (x y : String),
      String.intercalate.go (x ++ y) s l = x ++ String.intercalate.go y s l := by
  intro l
  induction l with
  | nil => intro x y; simp [String.intercalate.go]
  | cons c cs ih =>
    intro x y
    show String.intercalate.go (x ++ y ++ s ++ c) s cs
        = x ++ String.intercalate.go (y ++ s ++ c) s cs
    simp only [String.append_assoc]
    exact ih x (y ++ (s ++ c))

theorem intercalate_cons_cons (s a b : String) (l : List String) :
    String.intercalate s (a :: b :: l) = a ++ s ++ String.intercalate s (b :: l) := by
  show String.intercalate.go a s (b :: l) = a ++ s ++ String.intercalate.go b s l
  show String.intercalate.go (a ++ s ++ b) s l = a ++ s ++ String.intercalate.go b s l
  exact intercalate_go_append s l (a ++ s) b

theorem intercalate_glue (s a b : String) (l : List String) :
    String.intercalate s ((a ++ s ++ b) :: l) = a ++ s ++ String.intercalate s (b :: l) :=
  intercalate_go_append s l (a ++ s) b

theorem intercalate_append_of_ne_nil (s : String) :
    ∀ (xs ys : List String), xs ≠ [] → ys ≠ [] →
      String.intercalate s (xs ++ ys)
        = String.intercalate s xs ++ s ++ String.intercalate s ys := by
  intro xs
  induction xs with
  | nil => intro ys h _; exact absurd rfl h
  | cons x xs' ih =>
    intro ys _ hys
    cases xs' with
    | nil =>
      cases ys with
      | nil => exact absurd rfl hys
      | cons y ys' =>
        simp only [List.singleton_append]
        rw [intercalate_cons_cons]
        rfl
    | cons x2 xs2 =>
      simp only [List.cons_append]
      rw [intercalate_cons_cons s x x2 (xs2 ++ ys), ← List.cons_append,
        ih ys (by simp) hys, intercalate_cons_cons s x x2 xs2]
      simp [String.append_assoc]

theorem intercalate_map_flatten (s : String) :
    ∀ (P : List (List String)), (∀ p ∈ P, p ≠ []) →
      String.intercalate s (P.map (String.intercalate s))
        = String.intercalate s P.flatten := by
  intro P
  induction P with
  | nil => intro _; rfl
  | cons p ps ih =>
    intro hne
    have hp : p ≠ [] := hne p (List.mem_cons_self p ps)
    cases ps with
    | nil =>
      simp only [List.map_cons, List.map_nil, List.flatten_cons, List.flatten_nil,
        List.append_nil]
      rfl
    | cons q qs =>
      have hq : q ≠ [] := hne q (by simp)
      have hflat : (q :: qs).flatten ≠ [] := by
        cases q with
        | nil => exact absurd rfl hq
        | cons a as => simp
      rw [List.map_cons, List.flatten_cons]
      cases hmap : (q :: qs).map (String.intercalate s) with
      | nil => simp at hmap
      | cons m ms =>
        rw [intercalate_cons_cons, ← hmap,
          ih (fun r hr => hne r (List.mem_cons_of_mem p hr)),
          intercalate_append_of_ne_nil s p ((q :: qs).flatten) hp hflat]

/-- Each output chunk of the merge loop is the `"\n\n"`-join of the current chunk
followed by a contiguous prefix of the remaining input, and the rest of the output
partitions the remaining input into contiguous non-empty runs. -/
theorem merge_chunks_loop_parts (lengthCallable : String → Nat)
    (maxLength lengthTolerance : Nat) :
    ∀ (rest : List String) (currentChunk : String),
      ∃ (r : List String) (P : List (List String)),
        r ++ P.flatten = rest
        ∧ merge_chunks_loop lengthCallable maxLength lengthTolerance rest currentChunk
            = String.intercalate "\n\n" (currentChunk :: r)
                :: P.map (String.intercalate "\n\n")
        ∧ ∀ p ∈ P, p ≠ [] := by
  intro rest
  induction rest with
  | nil =>
    intro currentChunk
    exact ⟨[], [], by simp, rfl, by simp⟩
  | cons nextChunk rest' ih =>
    intro currentChunk
    by_cases hmerge : lengthCallable (currentChunk ++ nextChunk)
        ≤ maxLength + lengthTolerance
    · obtain ⟨r, P, hflat, heq, hne⟩ := ih (currentChunk ++ "\n\n" ++ nextChunk)
      refine ⟨nextChunk :: r, P, by simpa using hflat, ?_, hne⟩
      rw [merge_chunks_loop, if_pos hmerge, heq, intercalate_cons_cons,
        intercalate_glue "\n\n" currentChunk nextChunk r]
    · obtain ⟨r, P, hflat, heq, hne⟩ := ih nextChunk
      refine ⟨[], (nextChunk :: r) :: P, by simpa using hflat, ?_, ?_⟩
      · rw [merge_chunks_loop, if_neg hmerge, heq]
        rfl
      · intro p hp
        rcases List.mem_cons.mp hp with hcase | hcase
        · subst hcase; simp
        · exact hne p hcase

/-- C10 (confirmed): on a non-empty input, `merge_chunks_with_tolerance` returns a
non-empty list, joining the output with `"\n\n"` equals joining the input with
`"\n\n"`, and each output chunk is the `"\n\n"`-join of a contiguous non-empty run of
input chunks (the runs partition the input in order). -/
theorem claim_C10 (chunks : List String) (lengthCallable : String → Nat)
    (maxLength lengthTolerance : Nat) (h : chunks ≠ []) :
    merge_chunks_with_tolerance chunks lengthCallable maxLength lengthTolerance ≠ []
    ∧ String.intercalate "\n\n"
        (merge_chunks_with_tolerance chunks lengthCallable maxLength lengthTolerance)
      = String.intercalate "\n\n" chunks
    ∧ ∃ P : List (List String),
        (∀ p ∈ P, p ≠ [])
        ∧ P.flatten = chunks
        ∧ merge_chunks_with_tolerance chunks lengthCallable maxLength lengthTolerance
            = P.map (String.intercalate "\n\n") := by
  cases chunks with
  | nil => exact absurd rfl h
  | cons c rest =>
    obtain ⟨r, P, hflat, heq, hne⟩ :=
      merge_chunks_loop_parts lengthCallable maxLength lengthTolerance rest c
    have hform : merge_chunks_with_tolerance (c :: rest) lengthCallable maxLength
        lengthTolerance = ((c :: r) :: P).map (String.intercalate "\n\n") := by
      show merge_chunks_loop lengthCallable maxLength lengthTolerance rest c
          = ((c :: r) :: P).map (String.intercalate "\n\n")
      rw [heq]
      rfl
    have hPne : ∀ p ∈ (c :: r) :: P, p ≠ [] := by
      intro p hp
      rcases List.mem_cons.mp hp with hcase | hcase
      · subst hcase; simp
      · exact hne p hcase
    have hPflat : ((c :: r) :: P).flatten = c :: rest := by
      simp only [List.flatten_cons, List.cons_append]
      rw [hflat]
    refine ⟨?_, ?_, (c :: r) :: P, hPne, hPflat, hform⟩
    · rw [hform]
      simp
    · rw [hform, intercalate_map_flatten "\n\n" ((c :: r) :: P) hPne, hPflat]

theorem claim_C10_witness :
    merge_chunks_with_tolerance ["a", "b", "c"] (fun s => s.length) 2 1 ≠ []
    ∧ String.intercalate "\n\n"
        (merge_chunks_with_tolerance ["a", "b", "c"] (fun s => s.length) 2 1)
      = String.intercalate "\n\n" ["a", "b", "c"]
    ∧ ∃ P : List (List String),
        (∀ p ∈ P, p ≠ [])
        ∧ P.flatten = ["a", "b", "c"]
        ∧ merge_chunks_with_tolerance ["a", "b", "c"] (fun s => s.length) 2 1
            = P.map (String.intercalate "\n\n") :=
  claim_C10 ["a", "b", "c"] (fun s => s.length) 2 1 (by decide)

/-! ## Claim C4: `<pre>` blocks are never split -/

theorem mem_hnode_list_subtrees (p : HNode) :
    ∀ l : List HNode, p ∈ hnode_list_subtrees l ↔ ∃ c ∈ l, p ∈ c.subtrees := by
  intro l
  induction l with
  | nil => simp [hnode_list_subtrees]
  | cons c cs ih => simp [hnode_list_subtrees, ih]

theorem mem_subtrees_iff (p n : HNode) :
    p ∈ n.subtrees ↔ p = n ∨ ∃ c ∈ n.children, p ∈ c.subtrees := by
  cases n with
  | mk ty tx ch => simp [HNode.subtrees, HNode.children, mem_hnode_list_subtrees]

theorem self_mem_subtrees (n : HNode) : n ∈ n.subtrees :=
  (mem_subtrees_iff n n).mpr (Or.inl rfl)

theorem subtrees_of_child {n c m : HNode} (hc : c ∈ n.children) (hm : m ∈ c.subtrees) :
    m ∈ n.subtrees :=
  (mem_subtrees_iff m n).mpr (Or.inr ⟨c, hc, hm⟩)

theorem span_coherent_child {n c : HNode} (h : span_coherent n) (hc : c ∈ n.children) :
    span_coherent c :=
  fun m hm d hd => h m (subtrees_of_child hc hm) d hd

/-- In a span-coherent tree, every subtree's text is a contiguous substring of the
root's text. -/
theorem subtree_text_infix :
    ∀ n : HNode, span_coherent n → ∀ p ∈ n.subtrees, p.text.data <:+: n.text.data := by
  intro n
  induction n using HNode.strongInduction with
  | step ty tx ch ih =>
    intro hcoh p hp
    rcases (mem_subtrees_iff p _).mp hp with heq | ⟨c, hc, hsub⟩
    · subst heq
      exact List.infix_refl _
    · have hchild : c ∈ (HNode.mk ty tx ch).children := by
        simpa [HNode.children] using hc
      have h1 := ih c (by simpa [HNode.children] using hc)
        (span_coherent_child hcoh hchild) p hsub
      have h2 : c.text.data <:+: (HNode.mk ty tx ch).text.data :=
        hcoh _ (self_mem_subtrees _) c hchild
      exact h1.trans h2

theorem is_pre_tag_text {n : HNode} {t : String} (h : is_pre_tag n = some t) :
    t = n.text := by
  unfold is_pre_tag at h
  split at h
  · simp at h
  · split at h
    · simp at h
    · split at h
      · exact (Option.some_inj.mp h).symm
      · simp at h

theorem chunk_node_of_pre (lengthCallable : String → Nat) (maxLength : Nat) {n : HNode}
    {t : String} (h : is_pre_tag n = some t) (hne : t ≠ "") :
    chunk_node lengthCallable maxLength n = [t] := by
  cases n with
  | mk ty tx ch =>
    simp only [chunk_node, h]
    rw [if_neg hne]

/-- `chunk_node` either keeps the node whole, or — only when the node is not a
(non-empty) pre element — recurses into the children. -/
theorem chunk_node_eq_text_or_children (lengthCallable : String → Nat) (maxLength : Nat)
    (n : HNode) :
    chunk_node lengthCallable maxLength n = [n.text]
    ∨ ((is_pre_tag n).getD "" = ""
        ∧ chunk_node lengthCallable maxLength n
            = chunk_node_children lengthCallable maxLength n.children) := by
  cases n with
  | mk ty tx ch =>
    cases hpt : is_pre_tag (HNode.mk ty tx ch) with
    | none =>
      by_cases hlen : lengthCallable tx ≤ maxLength
      · left
        simp [chunk_node, hpt, hlen, HNode.text]
      · right
        exact ⟨by simp [hpt], by simp [chunk_node, hpt, hlen, HNode.children]⟩
    | some t =>
      by_cases hte : t = ""
      · subst hte
        by_cases hlen : lengthCallable tx ≤ maxLength
        · left
          simp [chunk_node, hpt, hlen, HNode.text]
        · right
          exact ⟨by simp [hpt], by simp [chunk_node, hpt, hlen, HNode.children]⟩
      · left
        rw [chunk_node_of_pre lengthCallable maxLength hpt hte, is_pre_tag_text hpt]

theorem mem_chunk_node_children (lengthCallable : String → Nat) (maxLength : Nat)
    (x : String) :
    ∀ l : List HNode, x ∈ chunk_node_children lengthCallable maxLength l
      ↔ ∃ c ∈ l, x ∈ chunk_node lengthCallable maxLength c := by
  intro l
  induction l with
  | nil => simp [chunk_node_children]
  | cons c cs ih => simp [chunk_node_children, ih]

/-- Every (non-empty) pre subtree's text lands inside a single emitted chunk. -/
theorem chunk_node_covers (lengthCallable : String → Nat) (maxLength : Nat) :
    ∀ root : HNode, span_coherent root → ∀ p ∈ root.subtrees,
      (is_pre_tag p).getD "" ≠ "" →
      ∃ c ∈ chunk_node lengthCallable maxLength root, p.text.data <:+: c.data := by
  intro root
  induction root using HNode.strongInduction with
  | step ty tx ch ih =>
    intro hcoh p hp hpre
    rcases chunk_node_eq_text_or_children lengthCallable maxLength (HNode.mk ty tx ch)
      with heq | ⟨hfalsy, heq⟩
    · exact ⟨(HNode.mk ty tx ch).text, by rw [heq]; exact List.mem_singleton.mpr rfl,
        subtree_text_infix _ hcoh p hp⟩
    · rcases (mem_subtrees_iff p _).mp hp with hroot | ⟨c, hc, hsub⟩
      · subst hroot
        exact absurd hfalsy hpre
      · have hchild : c ∈ (HNode.mk ty tx ch).children := by
          simpa [HNode.children] using hc
        obtain ⟨d, hd, hinf⟩ := ih c (by simpa [HNode.children] using hc)
          (span_coherent_child hcoh hchild) p hsub hpre
        refine ⟨d, ?_, hinf⟩
        rw [heq]
        exact (mem_chunk_node_children lengthCallable maxLength d _).mpr ⟨c, hchild, hd⟩

/-- C4 (confirmed): in a span-coherent tree, a pre element reached by `chunk_node` is
kept whole whatever its token length, and for any pre element anywhere in the tree the
whole of its text lies inside a single emitted chunk — it is never split across two
chunks. -/
theorem claim_C4 (lengthCallable : String → Nat) (maxLength : Nat) (root p : HNode)
    (hcoh : span_coherent root) (hp : p ∈ root.subtrees)
    (hpre : (is_pre_tag p).getD "" ≠ "") :
    chunk_node lengthCallable maxLength p = [p.text]
    ∧ ∃ c ∈ chunk_node lengthCallable maxLength root, p.text.data <:+: c.data := by
  constructor
  · obtain ⟨t, ht⟩ : ∃ t, is_pre_tag p = some t := by
      cases hpt : is_pre_tag p
      · rw [hpt] at hpre
        simp at hpre
      · exact ⟨_, rfl⟩
    have htne : t ≠ "" := by
      rw [ht] at hpre
      simpa using hpre
    rw [chunk_node_of_pre lengthCallable maxLength ht htne, is_pre_tag_text ht]
  · exact chunk_node_covers lengthCallable maxLength root hcoh p hp hpre

theorem claim_C4_witness :
    span_coherent c4_root
    ∧ c4_pre ∈ c4_root.subtrees
    ∧ (is_pre_tag c4_pre).getD "" ≠ ""
    ∧ ¬ String.length (c4_pre.text) ≤ 1
    ∧ (chunk_node String.length 1 c4_pre = [c4_pre.text]
       ∧ ∃ c ∈ chunk_node String.length 1 c4_root, c4_pre.text.data <:+: c.data) :=
  ⟨by decide,
   subtrees_of_child (by simp [c4_root, HNode.children]) (self_mem_subtrees c4_pre),
   by decide,
   by decide,
   claim_C4 String.length 1 c4_root c4_pre (by decide)
     (subtrees_of_child (by simp [c4_root, HNode.children]) (self_mem_subtrees c4_pre))
     (by decide)⟩

/-! ## Claim C5: function-chunk contexts reference only used names -/

theorem mem_pnode_children_subtrees (p : PNode) :
    ∀ l : List (Option String × PNode),
      p ∈ pnode_children_subtrees l ↔ ∃ c ∈ l, p ∈ c.2.subtrees := by
  intro l
  induction l with
  | nil => simp [pnode_children_subtrees]
  | cons c cs ih => simp [pnode_children_subtrees, ih]

theorem pnode_mem_subtrees_iff (p n : PNode) :
    p ∈ n.subtrees ↔ p = n ∨ ∃ c ∈ n.children, p ∈ c.2.subtrees := by
  cases n with
  | mk ty tx ch => simp [PNode.subtrees, PNode.children, mem_pnode_children_subtrees]

theorem pnode_self_mem_subtrees (n : PNode) : n ∈ n.subtrees :=
  (pnode_mem_subtrees_iff n n).mpr (Or.inl rfl)

theorem pnode_subtrees_of_child {n : PNode} {c : Option String × PNode} {m : PNode}
    (hc : c ∈ n.children) (hm : m ∈ c.2.subtrees) : m ∈ n.subtrees :=
  (pnode_mem_subtrees_iff m n).mpr (Or.inr ⟨c, hc, hm⟩)

theorem references_of_child {n : PNode} {c : Option String × PNode} {k : String}
    (hc : c ∈ n.children) (h : references_identifier c.2 k) :
    references_identifier n k := by
  obtain ⟨m, hm, hrest⟩ := h
  exact ⟨m, pnode_subtrees_of_child hc hm, hrest⟩

theorem child_by_field_mem {n : PNode} {fieldName : String} {p : PNode}
    (h : child_by_field_name n fieldName = some p) : ∃ c ∈ n.children, c.2 = p := by
  simp only [child_by_field_name, Option.map_eq_some'] at h
  obtain ⟨pair, hfind, hsnd⟩ := h
  exact ⟨pair, List.mem_of_find?_eq_some hfind, hsnd⟩

theorem references_of_field {n : PNode} {fieldName : String} {p : PNode} {k : String}
    (hf : child_by_field_name n fieldName = some p) (h : references_identifier p k) :
    references_identifier n k := by
  obtain ⟨c, hc, hceq⟩ := child_by_field_mem hf
  exact references_of_child hc (hceq ▸ h)

theorem mem_collect_identifiers_children {k : String} :
    ∀ l : List (Option String × PNode), k ∈ collect_identifiers_children l →
      ∃ c ∈ l, k ∈ collect_identifiers c.2 := by
  intro l
  induction l with
  | nil => simp [collect_identifiers_children]
  | cons c cs ih =>
    intro hk
    rw [collect_identifiers_children, Finset.mem_union] at hk
    rcases hk with hk | hk
    · exact ⟨c, List.mem_cons_self c cs, hk⟩
    · obtain ⟨d, hd, hkd⟩ := ih hk
      exact ⟨d, List.mem_cons_of_mem c hd, hkd⟩

theorem mem_collect_type_idents_children {k : String} :
    ∀ l : List (Option String × PNode),
      k ∈ collect_identifiers_from_type_annotations_children l →
      ∃ c ∈ l, k ∈ collect_identifiers_from_type_annotations c.2 := by
  intro l
  induction l with
  | nil => simp [collect_identifiers_from_type_annotations_children]
  | cons c cs ih =>
    intro hk
    rw [collect_identifiers_from_type_annotations_children, Finset.mem_union] at hk
    rcases hk with hk | hk
    · exact ⟨c, List.mem_cons_self c cs, hk⟩
    · obtain ⟨d, hd, hkd⟩ := ih hk
      exact ⟨d, List.mem_cons_of_mem c hd, hkd⟩

/-- Every name `collect_identifiers` gathers occurs as an identifier-like node in the
scanned subtree. -/
theorem collect_identifiers_references :
    ∀ n : PNode, ∀ k ∈ collect_identifiers n, references_identifier n k := by
  intro n
  induction n using PNode.strongInduction with
  | step ty tx ch ih =>
    intro k hk
    by_cases h1 : ty = "identifier"
    · rw [collect_identifiers, if_pos h1, Finset.mem_singleton] at hk
      exact ⟨PNode.mk ty tx ch, pnode_self_mem_subtrees _,
        Or.inl (by simp [PNode.type, h1]), by simp [PNode.text, hk]⟩
    · by_cases h2 : ty = "function_definition" ∨ ty = "class_definition"
      · rw [collect_identifiers, if_neg h1, if_pos h2, Finset.mem_union] at hk
        rcases hk with hk | hk
        · rcases hpar : child_by_field_name (PNode.mk ty tx ch) "parameters" with _ | p
          · rw [hpar] at hk
            simp at hk
          · rw [hpar] at hk
            obtain ⟨c, hc, hceq⟩ := child_by_field_mem hpar
            have hshape : c ∈ (PNode.mk ty tx ch).children := hc
            have hrefs := ih c (by simpa [PNode.children] using hc) k (by rw [hceq]; exact hk)
            exact references_of_child hshape hrefs
        · rcases hret : child_by_field_name (PNode.mk ty tx ch) "return_type" with _ | p
          · rw [hret] at hk
            simp at hk
          · rw [hret] at hk
            obtain ⟨c, hc, hceq⟩ := child_by_field_mem hret
            have hrefs := ih c (by simpa [PNode.children] using hc) k (by rw [hceq]; exact hk)
            exact references_of_child hc hrefs
      · rw [collect_identifiers, if_neg h1, if_neg h2] at hk
        obtain ⟨c, hc, hkc⟩ := mem_collect_identifiers_children ch hk
        have hrefs := ih c (by simpa [PNode.children] using hc) k hkc
        exact references_of_child (show c ∈ (PNode.mk ty tx ch).children from hc) hrefs

/-- Every name the annotation collector gathers occurs as an identifier-like node in
the scanned subtree. -/
theorem collect_type_idents_references :
    ∀ n : PNode, ∀ k ∈ collect_identifiers_from_type_annotations n,
      references_identifier n k := by
  intro n
  induction n using PNode.strongInduction with
  | step ty tx ch ih =>
    intro k hk
    by_cases h1 : ty = "type" ∨ ty = "type_identifier" ∨ ty = "identifier"
    · rw [collect_identifiers_from_type_annotations, if_pos h1, Finset.mem_singleton] at hk
      refine ⟨PNode.mk ty tx ch, pnode_self_mem_subtrees _, ?_, by simp [PNode.text, hk]⟩
      rcases h1 with h | h | h
      · exact Or.inr (Or.inl (by simp [PNode.type, h]))
      · exact Or.inr (Or.inr (by simp [PNode.type, h]))
      · exact Or.inl (by simp [PNode.type, h])
    · rw [collect_identifiers_from_type_annotations, if_neg h1] at hk
      obtain ⟨c, hc, hkc⟩ := mem_collect_type_idents_children ch hk
      have hrefs := ih c (by simpa [PNode.children] using hc) k hkc
      exact references_of_child (show c ∈ (PNode.mk ty tx ch).children from hc) hrefs

/-- Every identifier `process_function` collects for a node is referenced in that
node's body or signature. -/
theorem function_identifiers_referenced (node : PNode) (k : String)
    (hk : k ∈ function_identifiers node) : referenced_in_function node k := by
  rw [function_identifiers, Finset.mem_union, Finset.mem_union] at hk
  rcases hk with (hk | hk) | hk
  · exact Or.inl (collect_identifiers_references _ k hk)
  · rcases hpar : child_by_field_name node "parameters" with _ | p
    · rw [hpar] at hk
      simp at hk
    · rw [hpar] at hk
      exact Or.inr (Or.inl (by
        rw [hpar]
        exact collect_type_idents_references p k hk))
  · rcases hret : child_by_field_name node "return_type" with _ | p
    · rw [hret] at hk
      simp at hk
    · rw [hret] at hk
      exact Or.inr (Or.inr (by
        rw [hret]
        exact collect_type_idents_references p k hk))

theorem context_imports_build {importMap : String → Option String}
    {moduleVariables : List String} {context : Ctx} {identifiers : Finset String}
    {s : String}
    (h : s ∈ context_imports
      (build_func_context importMap moduleVariables context identifiers)) :
    ∃ k ∈ identifiers, importMap k = some s := by
  rw [build_func_context] at h
  split at h
  · simp [context_imports] at h
  · rw [context_imports] at h
    simp only at h
    obtain ⟨k, hk, hmem⟩ := Finset.mem_biUnion.mp h
    refine ⟨k, hk, ?_⟩
    simpa [Option.mem_toFinset, Option.mem_def] using hmem

theorem context_module_variables_build {importMap : String → Option String}
    {moduleVariables : List String} {context : Ctx} {identifiers : Finset String}
    {v : String}
    (h : v ∈ context_module_variables
      (build_func_context importMap moduleVariables context identifiers)) :
    v ∈ identifiers := by
  rw [build_func_context] at h
  split at h
  · simp [context_module_variables] at h
  · rw [context_module_variables] at h
    simp only at h
    exact (Finset.mem_filter.mp h).1

/-- C5 (confirmed): the chunk `process_function` emits for a function node has an
`imports` context holding only import-map entries whose key is referenced in the
function's body or signature, and its `module_variables` context never holds a name
that is not so referenced. -/
theorem claim_C5 (importMap : String → Option String) (moduleVariables : List String)
    (context : Ctx) (node : PNode) (chunk : CodeChunk)
    (hhead : (process_function importMap moduleVariables context node).head?
      = some chunk) :
    (∀ s ∈ context_imports chunk.context,
        ∃ k, importMap k = some s ∧ referenced_in_function node k)
    ∧ ∀ v, ¬ referenced_in_function node v →
        v ∉ context_module_variables chunk.context := by
  have hctx : chunk.context
      = build_func_context importMap moduleVariables context
          (function_identifiers node) := by
    rw [process_function] at hhead
    simp only [List.head?_cons, Option.some_inj] at hhead
    rw [← hhead]
  constructor
  · intro s hs
    rw [hctx] at hs
    obtain ⟨k, hk, hmap⟩ := context_imports_build hs
    exact ⟨k, hmap, function_identifiers_referenced node k hk⟩
  · intro v hv hmem
    rw [hctx] at hmem
    exact hv (function_identifiers_referenced node v
      (context_module_variables_build hmem))

theorem claim_C5_witness :
    (process_function c5_import_map ["G"] ⟨none, none⟩ c5_node).head? = some c5_chunk
    ∧ (∃ k, c5_import_map k = some "import numpy as np"
        ∧ referenced_in_function c5_node k)
    ∧ "G" ∉ context_module_variables c5_chunk.context := by
  have hnp : collect_identifiers (PNode.mk "identifier" "np" []) = {"np"} := by
    rw [collect_identifiers]
    simp
  have hx : collect_identifiers (PNode.mk "identifier" "x" []) = {"x"} := by
    rw [collect_identifiers]
    simp
  have hblockch : collect_identifiers_children
      [(none, PNode.mk "identifier" "np" []), (none, PNode.mk "identifier" "x" [])]
      = {"np"} ∪ ({"x"} ∪ ∅) := by
    rw [collect_identifiers_children, collect_identifiers_children,
      collect_identifiers_children]
    simp only [hnp, hx]
  have hblock : collect_identifiers (PNode.mk "block" "return np.sum(x)"
      [(none, PNode.mk "identifier" "np" []), (none, PNode.mk "identifier" "x" [])])
      = {"np"} ∪ ({"x"} ∪ ∅) := by
    rw [collect_identifiers]
    simp [hblockch]
  have hxa : collect_identifiers_from_type_annotations (PNode.mk "identifier" "x" [])
      = {"x"} := by
    rw [collect_identifiers_from_type_annotations]
    simp
  have hpach : collect_identifiers_from_type_annotations_children
      [(none, PNode.mk "identifier" "x" [])] = {"x"} ∪ ∅ := by
    rw [collect_identifiers_from_type_annotations_children,
      collect_identifiers_from_type_annotations_children]
    simp only [hxa]
  have hpa : collect_identifiers_from_type_annotations (PNode.mk "parameters" "(x)"
      [(none, PNode.mk "identifier" "x" [])]) = {"x"} ∪ ∅ := by
    rw [collect_identifiers_from_type_annotations]
    simp [hpach]
  have hbodyf : (child_by_field_name c5_node "body").getD default_pnode
      = PNode.mk "block" "return np.sum(x)"
          [(none, PNode.mk "identifier" "np" []), (none, PNode.mk "identifier" "x" [])] :=
    rfl
  have hparf : child_by_field_name c5_node "parameters"
      = some (PNode.mk "parameters" "(x)" [(none, PNode.mk "identifier" "x" [])]) := rfl
  have hretf : child_by_field_name c5_node "return_type" = none := rfl
  have hids : function_identifiers c5_node = {"np", "x"} := by
    rw [function_identifiers, hbodyf, hblock]
    simp only [hparf, hretf, hpa]
    decide
  have hhead : (process_function c5_import_map ["G"] ⟨none, none⟩ c5_node).head?
      = some c5_chunk := by
    simp only [process_function, List.head?_cons, Option.some_inj]
    rfl
  have hs : "import numpy as np" ∈ context_imports c5_chunk.context := by
    show "import numpy as np" ∈ context_imports (build_func_context c5_import_map ["G"]
      ⟨none, none⟩ (function_identifiers c5_node))
    rw [hids]
    decide
  have hng : ¬ referenced_in_function c5_node "G" := by decide
  have hgm : "G" ∉ context_module_variables c5_chunk.context := by
    show "G" ∉ context_module_variables (build_func_context c5_import_map ["G"]
      ⟨none, none⟩ (function_identifiers c5_node))
    rw [hids]
    decide
  exact ⟨hhead,
    (claim_C5 c5_import_map ["G"] ⟨none, none⟩ c5_node c5_chunk hhead).1
      "import numpy as np" hs,
    hgm⟩

/-! ## Claims C6, C7: dedup and rerank in `retrieve_and_rerank` -/

theorem dict_insert_entry {m : List (String × RDoc)} {k : String} {v : RDoc} :
    ∀ p ∈ dict_insert m k v, p = (k, v) ∨ (p ∈ m ∧ p.1 ≠ k) := by
  intro p hp
  rw [dict_insert] at hp
  split at hp
  · obtain ⟨q, hq, hqe⟩ := List.mem_map.mp hp
    by_cases hqk : q.1 = k
    · rw [if_pos hqk] at hqe
      exact Or.inl hqe.symm
    · rw [if_neg hqk] at hqe
      exact Or.inr ⟨hqe ▸ hq, hqe ▸ hqk⟩
  · rename_i hany
    rcases List.mem_append.mp hp with hin | hin
    · refine Or.inr ⟨hin, ?_⟩
      intro hk
      exact hany (List.any_eq_true.mpr ⟨p, hin, by simp [hk]⟩)
    · exact Or.inl (by simpa using hin)

theorem dict_insert_self_mem {m : List (String × RDoc)} {k : String} {v : RDoc} :
    (k, v) ∈ dict_insert m k v := by
  rw [dict_insert]
  split
  · rename_i hany
    obtain ⟨q, hq, hqk⟩ := List.any_eq_true.mp hany
    refine List.mem_map.mpr ⟨q, hq, ?_⟩
    rw [if_pos (by simpa using hqk)]
  · simp

theorem dict_insert_mem_of_ne {m : List (String × RDoc)} {k : String} {v : RDoc}
    {p : String × RDoc} (hp : p ∈ m) (hne : p.1 ≠ k) : p ∈ dict_insert m k v := by
  rw [dict_insert]
  split
  · refine List.mem_map.mpr ⟨p, hp, ?_⟩
    rw [if_neg hne]
  · exact List.mem_append.mpr (Or.inl hp)

theorem dict_insert_keys_nodup {m : List (String × RDoc)} {k : String} {v : RDoc}
    (h : (m.map Prod.fst).Nodup) : ((dict_insert m k v).map Prod.fst).Nodup := by
  rw [dict_insert]
  split
  · have heq : ((m.map fun p => if p.1 = k then (k, v) else p).map Prod.fst)
        = m.map Prod.fst := by
      rw [List.map_map]
      apply List.map_congr_left
      intro p _
      by_cases hpk : p.1 = k <;> simp [hpk]
    rw [heq]
    exact h
  · rename_i hany
    rw [List.map_append]
    refine List.Nodup.append h (by simp) ?_
    intro a ha hb
    simp only [List.map_cons, List.map_nil, List.mem_singleton] at hb
    obtain ⟨p, hp, hpa⟩ := List.mem_map.mp ha
    exact hany (List.any_eq_true.mpr ⟨p, hp, by simp [hpa, hb]⟩)

/-- Invariants of the dict-building fold: keys stay nodup, every entry maps a content
key to a doc with that content, each entry is the last matching doc of the processed
list (or an untouched initial entry), and every processed doc's content has an entry. -/
theorem dedup_fold_invariant (docs : List RDoc) :
    ∀ m : List (String × RDoc),
      (m.map Prod.fst).Nodup →
      (∀ p ∈ m, p.2.content = p.1) →
      ((((docs.foldl (fun acc doc => dict_insert acc doc.content doc) m).map
          Prod.fst).Nodup)
        ∧ (∀ p ∈ docs.foldl (fun acc doc => dict_insert acc doc.content doc) m,
            p.2.content = p.1)
        ∧ (∀ p ∈ docs.foldl (fun acc doc => dict_insert acc doc.content doc) m,
            docs.reverse.find? (fun x => x.content = p.1) = some p.2
            ∨ (docs.reverse.find? (fun x => x.content = p.1) = none ∧ p ∈ m))
        ∧ ∀ x ∈ docs, ∃ p ∈ docs.foldl (fun acc doc => dict_insert acc doc.content doc) m,
            p.1 = x.content) := by
  induction docs with
  | nil =>
    intro m h1 h2
    exact ⟨h1, h2, fun p hp => Or.inr ⟨rfl, hp⟩, by simp⟩
  | cons d ds ih =>
    intro m h1 h2
    simp only [List.foldl_cons]
    have h1i : ((dict_insert m d.content d).map Prod.fst).Nodup :=
      dict_insert_keys_nodup h1
    have h2i : ∀ p ∈ dict_insert m d.content d, p.2.content = p.1 := by
      intro p hp
      rcases dict_insert_entry p hp with heq | ⟨hin, _⟩
      · rw [heq]
      · exact h2 p hin
    obtain ⟨ha, hb, hc, hd⟩ := ih (dict_insert m d.content d) h1i h2i
    refine ⟨ha, hb, ?_, ?_⟩
    · intro p hp
      rcases hc p hp with hfound | ⟨hnone, hin⟩
      · left
        rw [List.reverse_cons, List.find?_append, hfound]
        rfl
      · rcases dict_insert_entry p hin with heq | ⟨hinm, hne⟩
        · left
          rw [List.reverse_cons, List.find?_append, hnone]
          subst heq
          simp [List.find?]
        · right
          refine ⟨?_, hinm⟩
          rw [List.reverse_cons, List.find?_append, hnone, Option.none_or,
            List.find?_eq_none]
          intro x hx
          simp only [List.mem_singleton] at hx
          subst hx
          simp only [decide_eq_true_eq]
          exact fun hcontra => hne hcontra.symm
    · intro x hx
      rcases List.mem_cons.mp hx with hxd | hxds
      · subst hxd
        -- the key x.content is present after the first insert and persists
        have hpersist : ∀ (l : List RDoc) (acc : List (String × RDoc)),
            (∃ p ∈ acc, p.1 = x.content) →
            ∃ p ∈ l.foldl (fun a doc => dict_insert a doc.content doc) acc,
              p.1 = x.content := by
          intro l
          induction l with
          | nil => intro acc hacc; simpa using hacc
          | cons e es ihe =>
            intro acc hacc
            obtain ⟨p, hp, hpk⟩ := hacc
            simp only [List.foldl_cons]
            apply ihe
            by_cases hpe : p.1 = e.content
            · exact ⟨(e.content, e), dict_insert_self_mem, by rw [← hpe, hpk]⟩
            · exact ⟨p, dict_insert_mem_of_ne hp hpe, hpk⟩
        exact hpersist ds (dict_insert m x.content x)
          ⟨(x.content, x), dict_insert_self_mem, rfl⟩
      · exact hd x hxds

/-- C6 (confirmed): `retrieve_and_rerank` deduplicates by exact `content` equality
before calling the reranker — the deduplicated list (which is what `rerank` receives)
has pairwise-distinct contents, each of its docs is the *last* doc of the retrieval
list bearing that content, and no retrieved content is lost. -/
theorem claim_C6 (docs : List RDoc) :
    ((dedup_by_content docs).map RDoc.content).Nodup
    ∧ (∀ d ∈ dedup_by_content docs,
        docs.reverse.find? (fun x => x.content = d.content) = some d)
    ∧ ∀ x ∈ docs, ∃ d ∈ dedup_by_content docs, d.content = x.content := by
  obtain ⟨ha, hb, hc, hd⟩ := dedup_fold_invariant docs [] (by simp) (by simp)
  refine ⟨?_, ?_, ?_⟩
  · have heq : (dedup_by_content docs).map RDoc.content
        = (docs.foldl (fun acc doc => dict_insert acc doc.content doc) []).map
            Prod.fst := by
      rw [dedup_by_content, List.map_map]
      apply List.map_congr_left
      intro p hp
      exact hb p hp
    rw [heq]
    exact ha
  · intro d hdm
    obtain ⟨p, hp, hpd⟩ := List.mem_map.mp hdm
    rcases hc p hp with hfound | ⟨_, hnil⟩
    · rw [← hb p hp, hpd] at hfound
      exact hfound
    · exact absurd hnil (by simp)
  · intro x hx
    obtain ⟨p, hp, hpk⟩ := hd x hx
    exact ⟨p.2, List.mem_map.mpr ⟨p, hp, rfl⟩, by rw [hb p hp, hpk]⟩

theorem claim_C6_witness :
    ({ content := "a", embed_content := "ea2", payload := 2 } : RDoc)
        ∈ dedup_by_content c6_docs
    ∧ c6_docs.reverse.find?
        (fun x => x.content
          = ({ content := "a", embed_content := "ea2", payload := 2 } : RDoc).content)
      = some { content := "a", embed_content := "ea2", payload := 2 } :=
  ⟨by decide,
   (claim_C6 c6_docs).2.1 { content := "a", embed_content := "ea2", payload := 2 }
     (by decide)⟩

/-- C7 (confirmed): a failing rerank call makes `retrieve_and_rerank` fail with the
same error — no fallback to the unranked order, no partial result; a successful rerank
yields exactly the reranker-ordered docs (indices into the deduplicated list, in
response order) cut to `k*2` then `k`, hence at most `k` results. -/
theorem claim_C7 (arerankFn : String → List String → Nat → Except String RerankResponse)
    (query : String) (documents : List RDoc) (k : Nat) :
    (∀ e : String, (∀ ds n, arerankFn query ds n = Except.error e) →
        retrieve_and_rerank arerankFn query documents k = Except.error e)
    ∧ (∀ response,
        arerankFn query ((dedup_by_content documents).map RDoc.embed_content)
            (if k * 2 = 0 then (dedup_by_content documents).length else k * 2)
          = Except.ok response →
        retrieve_and_rerank arerankFn query documents k
          = Except.ok (((response.results.filterMap
              fun i => (dedup_by_content documents).get? i).take (k * 2)).take k))
    ∧ ∀ out, retrieve_and_rerank arerankFn query documents k = Except.ok out →
        out.length ≤ k := by
  refine ⟨?_, ?_, ?_⟩
  · intro e he
    simp only [retrieve_and_rerank, rerank, he]
  · intro response hresp
    simp only [retrieve_and_rerank, rerank]
    rw [hresp]
  · intro out hout
    rw [retrieve_and_rerank] at hout
    rcases hr : rerank arerankFn query (dedup_by_content documents) (some (k * 2)) with e | rr
    · rw [hr] at hout
      exact absurd hout (by simp)
    · rw [hr] at hout
      simp only [Except.ok.injEq] at hout
      rw [← hout]
      simp [List.length_take]

theorem claim_C7_witness :
    retrieve_and_rerank (fun _ _ _ => Except.error "boom") "q"
        [{ content := "a", embed_content := "ea", payload := 0 }] 2
      = Except.error "boom" :=
  (claim_C7 (fun _ _ _ => Except.error "boom") "q"
    [{ content := "a", embed_content := "ea", payload := 0 }] 2).1 "boom"
    (fun _ _ => rfl)

/-! ## Claim C8: first-image-bearing-chunk policy -/

/-- C8 (confirmed): `fetch_most_relevant_image` scans the retrieved chunks in order,
returns `none` when no chunk reports images, and otherwise answers from the *first*
chunk with `number_of_images > 0` — the result does not depend on the chunks after it. -/
theorem claim_C8 (imagePredict : String → List String → Nat → List Nat)
    (encodeImage : String → String) (dataset : List DataRow) (query : String) :
    (∀ chunks : List RChunk, (∀ c ∈ chunks, c.metadata.number_of_images = 0) →
        fetch_most_relevant_image imagePredict encodeImage dataset query chunks = none)
    ∧ ∀ (pre : List RChunk) (c : RChunk) (post : List RChunk),
        (∀ p ∈ pre, p.metadata.number_of_images = 0) →
        0 < c.metadata.number_of_images →
        fetch_most_relevant_image imagePredict encodeImage dataset query
            (pre ++ c :: post)
          = some (encodeImage
              ((dataset.getD c.metadata.document_idx ⟨[], []⟩).images.getD
                ((imagePredict query
                  (dataset.getD c.metadata.document_idx ⟨[], []⟩).image_descriptions
                  1).headD 0) "")) := by
  constructor
  · intro chunks
    induction chunks with
    | nil => intro _; rfl
    | cons c cs ih =>
      intro h
      rw [fetch_most_relevant_image,
        if_neg (by simp [h c (List.mem_cons_self c cs)])]
      exact ih fun p hp => h p (List.mem_cons_of_mem c hp)
  · intro pre
    induction pre with
    | nil =>
      intro c post _ hc
      rw [List.nil_append, fetch_most_relevant_image, if_pos hc]
    | cons p pre' ih =>
      intro c post hpre hc
      rw [List.cons_append, fetch_most_relevant_image,
        if_neg (by simp [hpre p (List.mem_cons_self p pre')])]
      exact ih c post (fun q hq => hpre q (List.mem_cons_of_mem p hq)) hc

theorem claim_C8_witness :
    fetch_most_relevant_image (fun _ _ _ => [1]) (fun s => s)
        [{ image_descriptions := ["d0", "d1"], images := ["i0", "i1"] }] "q"
        ([{ metadata := { document_idx := 0, number_of_images := 0 } }]
          ++ { metadata := { document_idx := 0, number_of_images := 2 } }
            :: [{ metadata := { document_idx := 0, number_of_images := 7 } }])
      = some "i1" :=
  (claim_C8 (fun _ _ _ => [1]) (fun s => s)
    [{ image_descriptions := ["d0", "d1"], images := ["i0", "i1"] }] "q").2
    [{ metadata := { document_idx := 0, number_of_images := 0 } }]
    { metadata := { document_idx := 0, number_of_images := 2 } }
    [{ metadata := { document_idx := 0, number_of_images := 7 } }]
    (by decide) (by decide)

end RagSpec
